import Mathlib

/-!
Verification of the MenuAI line-classification core.

The Python core (`backend/app/extractor.py` and `backend/app/parser.py`) is
shallowly embedded here.  Python strings are modelled as `List Char`; the
regex-driven transformations are implemented as explicit recursive functions
that follow the behaviour of the corresponding `re` patterns on the embedded
character repertoire; Python floats are modelled as rationals (`ℚ`).
Character classes (`str.isdigit`, `\s`, `\d`, Unicode letter category) are
modelled over the characters exercised by the development: ASCII plus the
Unicode whitespace code points and the Arabic-Indic digit block, which is
enough to separate "ASCII digit" (`[0-9]` in the source regexes) from
"Unicode digit" (`\d` / `str.isdigit`).
-/

/-- Python `\s` / `str.strip()` whitespace, by code point (ASCII whitespace
plus the Unicode space characters). -/
def pyIsSpace (c : Char) : Bool :=
  decide (c.toNat = 32 ∨ c.toNat = 9 ∨ c.toNat = 10 ∨ c.toNat = 13 ∨
    c.toNat = 11 ∨ c.toNat = 12 ∨ c.toNat = 133 ∨ c.toNat = 160 ∨
    c.toNat = 5760 ∨ (8192 ≤ c.toNat ∧ c.toNat ≤ 8202) ∨ c.toNat = 8232 ∨
    c.toNat = 8233 ∨ c.toNat = 8239 ∨ c.toNat = 8287 ∨ c.toNat = 12288)

/-- ASCII digit, the `[0-9]` character class of the source regexes. -/
def isDig (c : Char) : Bool :=
  decide (48 ≤ c.toNat ∧ c.toNat ≤ 57)

/-- Python `str.isdigit` / regex `\d` on the modelled repertoire: ASCII
digits together with the Arabic-Indic digits U+0660–U+0669. -/
def pyIsDigitChar (c : Char) : Bool :=
  decide ((48 ≤ c.toNat ∧ c.toNat ≤ 57) ∨ (1632 ≤ c.toNat ∧ c.toNat ≤ 1641))

/-- Cased uppercase character (ASCII model). -/
def isUpperChar (c : Char) : Bool :=
  decide (65 ≤ c.toNat ∧ c.toNat ≤ 90)

/-- Cased lowercase character (ASCII model). -/
def isLowerChar (c : Char) : Bool :=
  decide (97 ≤ c.toNat ∧ c.toNat ≤ 122)

/-- Unicode letter category (category `L*`), modelled on the embedded
repertoire as the ASCII letters.  The Arabic-Indic digits are category `Nd`,
hence correctly excluded. -/
def isLetterChar (c : Char) : Bool :=
  decide ((65 ≤ c.toNat ∧ c.toNat ≤ 90) ∨ (97 ≤ c.toNat ∧ c.toNat ≤ 122))

/-- Python `str.lower` on one character (ASCII model). -/
def lowerChar (c : Char) : Char :=
  if 65 ≤ c.toNat ∧ c.toNat ≤ 90 then Char.ofNat (c.toNat + 32) else c

/-- Python `str.lower`. -/
def pyLower (l : List Char) : List Char := l.map lowerChar

/-- Drop the trailing run of characters satisfying `p`. -/
def dropTrail (p : Char → Bool) (l : List Char) : List Char :=
  (l.reverse.dropWhile p).reverse

/-- Python `str.strip(chars)`: drop leading and trailing runs of characters
satisfying `p`. -/
def stripWith (p : Char → Bool) (l : List Char) : List Char :=
  dropTrail p (l.dropWhile p)

/-- Python `str.strip()` (whitespace). -/
def pyStrip (l : List Char) : List Char := stripWith pyIsSpace l

/-- The character set of `strip(". ,:-")` in `extract_items`. -/
def isPunctStrip (c : Char) : Bool :=
  c = '.' || c = ' ' || c = ',' || c = ':' || c = '-'

/-- `strip(". ,:-")`. -/
def stripPunct (l : List Char) : List Char := stripWith isPunctStrip l

/-- `re.sub(r"\s+", " ", s)`: collapse every maximal whitespace run into a
single ASCII space. -/
def collapseWs : List Char → List Char
  | [] => []
  | [c] => if pyIsSpace c then [' '] else [c]
  | c :: d :: rest =>
    if pyIsSpace c && pyIsSpace d then collapseWs (d :: rest)
    else (if pyIsSpace c then ' ' else c) :: collapseWs (d :: rest)

/-- `normalize_whitespace` from `extractor.py`:
`re.sub(r"\s+", " ", s).strip()`. -/
def normalize_whitespace (l : List Char) : List Char := pyStrip (collapseWs l)

/-- Helper for `wordsOf`: accumulates the current (reversed) word. -/
def wordsOfGo : List Char → List Char → List (List Char)
  | acc, [] => if acc = [] then [] else [acc.reverse]
  | acc, c :: rest =>
    if pyIsSpace c then
      (if acc = [] then wordsOfGo [] rest else acc.reverse :: wordsOfGo [] rest)
    else wordsOfGo (c :: acc) rest

/-- `[w for w in re.split(r"\s+", t) if w]`: the whitespace-separated words. -/
def wordsOf (l : List Char) : List (List Char) := wordsOfGo [] l

/-- Python `str.isupper`: at least one cased character and no lowercase
character. -/
def pyIsUpper (w : List Char) : Bool :=
  w.any isUpperChar && !(w.any isLowerChar)

/-- Python `str.isdigit` on a whole string: non-empty and all digits. -/
def pyIsDigitStr (w : List Char) : Bool :=
  !(w.isEmpty) && w.all pyIsDigitChar

/-- Boolean list-prefix test. -/
def isPrefixOfB : List Char → List Char → Bool
  | [], _ => true
  | _ :: _, [] => false
  | a :: as, b :: bs => a = b && isPrefixOfB as bs

/-- Python `needle in hay` substring containment. -/
def containsSub (needle : List Char) : List Char → Bool
  | [] => isPrefixOfB needle []
  | c :: t => isPrefixOfB needle (c :: t) || containsSub needle t

/-- `SECTION_KEYWORDS` from `extractor.py`. -/
def SECTION_KEYWORDS : List (List Char) :=
  ["veg".data, "non-veg".data, "vegetarian".data, "non vegetarian".data,
   "snacks".data, "beverages".data, "drinks".data, "rice".data,
   "dessert".data, "starters".data, "mains".data, "sides".data,
   "salads".data, "soups".data, "curries".data, "thali".data, "menu".data,
   "specials".data, "combo".data, "set".data, "kitchen".data]

/-- `is_header_like` from `extractor.py` (`t` is `s.strip()`, inlined). -/
def is_header_like (s : List Char) : Bool :=
  if pyStrip s = [] then true
  else if decide ((wordsOf (pyStrip s)).length ≤ 4) &&
      (wordsOf (pyStrip s)).all
        (fun w => pyIsUpper w || pyIsDigitStr w || decide (w.length ≤ 3)) then
    true
  else SECTION_KEYWORDS.any fun kw => containsSub kw (pyLower (pyStrip s))

/-- The character class `[\-•\*\d\)\.]` of the bullet-stripping regex
(`\d` is the Unicode digit class). -/
def isBulletChar (c : Char) : Bool :=
  c = '-' || c = '•' || c = '*' || pyIsDigitChar c || c = ')' || c = '.'

/-- `re.sub(r"^[\-•\*\d\)\.]+\s*", "", s)`: the anchored pattern can
only match (once) at the start of the string. -/
def stripBullets (l : List Char) : List Char :=
  match l with
  | [] => []
  | c :: _ =>
    if isBulletChar c then (l.dropWhile isBulletChar).dropWhile pyIsSpace
    else l

/-- `re.sub(r"^\(|\)$", "", s)`: remove a lone leading `(` and a lone
trailing `)`. -/
def parenEdge (l : List Char) : List Char :=
  let l1 := if l.head? = some '(' then l.tail else l
  if l1.getLast? = some ')' then l1.dropLast else l1

/-- Fuel-driven worker for `removeParens`; the fuel only needs to exceed the
length of the list. -/
def removeParensGo : Nat → List Char → List Char
  | 0, l => l
  | _ + 1, [] => []
  | fuel + 1, c :: rest =>
    if c = '(' && rest.contains ')' then
      removeParensGo fuel ((rest.dropWhile fun d => !(d = ')')).tail)
    else c :: removeParensGo fuel rest

/-- `re.sub(r"\(.*?\)", "", s)`: remove every non-greedy parenthesized
group (each `(` up to the nearest following `)`). -/
def removeParens (l : List Char) : List Char := removeParensGo l.length l

/-- Does a separator match start here?  The separators of
`re.split(r"\s{2,}|\s[-–—:]\s|\s\|\s|\t", s)`. -/
def sepAt : List Char → Bool
  | c :: d :: rest =>
    (pyIsSpace c && pyIsSpace d) ||
    (pyIsSpace c && (d = '-' || d = '–' || d = '—' || d = ':' || d = '|') &&
      (match rest with | e :: _ => pyIsSpace e | [] => false)) ||
    c = '\t'
  | [c] => c = '\t'
  | [] => false

/-- `parts[0]` of the separator split: the prefix before the leftmost
separator match. -/
def nameSegment : List Char → List Char
  | [] => []
  | c :: rest => if sepAt (c :: rest) then [] else c :: nameSegment rest

/-- Drop a leading whitespace run (`\s*`). -/
def dropSpaces (l : List Char) : List Char := l.dropWhile pyIsSpace

/-- Consume the optional decimal part `(?:[\.,][0-9]{1,2})?` (greedy). -/
def afterDecimal (l : List Char) : List Char :=
  match l with
  | s :: d :: rest =>
    if (s = '.' || s = ',') && isDig d then
      match rest with
      | d2 :: rest2 => if isDig d2 then rest2 else rest
      | [] => []
    else l
  | _ => l

/-- Consume the optional trailing slash-dash token of `PRICE_RE`. -/
def afterSlash : List Char → List Char
  | '/' :: '-' :: r => r
  | l => l

/-- Consume the number part of `PRICE_RE`: one or more ASCII digits, the
optional decimal part, trailing whitespace and the optional slash-dash
token; `none` when the head is not an ASCII digit. -/
def tailAfterNumber : List Char → Option (List Char)
  | [] => none
  | c :: rest =>
    if isDig c then
      some (afterSlash (dropSpaces (afterDecimal (rest.dropWhile isDig))))
    else none

/-- Strip a case-insensitive literal token from the front. -/
def ciStrip : List Char → List Char → Option (List Char)
  | [], l => some l
  | _ :: _, [] => none
  | p :: ps, c :: cs => if lowerChar p = lowerChar c then ciStrip ps cs else none

/-- One currency alternative followed by `\s*` and the number tail. -/
def tryCur (tok l : List Char) : Option (List Char) :=
  match ciStrip tok l with
  | some r => tailAfterNumber (dropSpaces r)
  | none => none

/-- The alternatives of `(₹|Rs\.?|INR|Rs|\$|€|£)?` in backtracking order
(`Rs\.?` greedily tries `Rs.` before `Rs`). -/
def curToks : List (List Char) :=
  [['₹'], ['R', 's', '.'], ['R', 's'], ['I', 'N', 'R'], ['R', 's'],
   ['$'], ['€'], ['£']]

/-- Try the currency alternatives in order; the final fallback is the empty
currency (the group is optional). -/
def firstCur : List (List Char) → List Char → Option (List Char)
  | [], l => tailAfterNumber (dropSpaces l)
  | t :: ts, l =>
    match tryCur t l with
    | some r => some r
    | none => firstCur ts l

/-- Does `PRICE_RE` match at this position?  On success, returns the rest of
the string after the match. -/
def priceMatch (l : List Char) : Option (List Char) := firstCur curToks l

/-- Fuel-driven scan of `PRICE_RE.sub("", s)`. -/
def priceSubGo : Nat → List Char → List Char
  | 0, l => l
  | _ + 1, [] => []
  | fuel + 1, c :: rest =>
    match priceMatch (c :: rest) with
    | some r => priceSubGo fuel r
    | none => c :: priceSubGo fuel rest

/-- `PRICE_RE.sub("", s)`: remove all non-overlapping `PRICE_RE` matches,
scanning left to right. -/
def priceSub (l : List Char) : List Char := priceSubGo l.length l

/-- `strip_price` from `extractor.py`: `PRICE_RE.sub("", s).strip()`. -/
def strip_price (l : List Char) : List Char := pyStrip (priceSub l)

/-- `proportion_letters` from `extractor.py`, with the float result modelled
as a rational: the number of letters divided by the length.  Written with
`mkRat` so that it evaluates by kernel reduction; `proportion_letters_eq`
below states the textbook form. -/
def proportion_letters (l : List Char) : ℚ :=
  if l = [] then 0 else mkRat (l.countP isLetterChar) l.length

/-- `min(1.0, max(0.0, x))`. -/
def clampQ (q : ℚ) : ℚ := min 1 (max 0 q)

/-- `round(x, 2)`: round to two decimal places (floats modelled as
rationals), i.e. `round (q * 100) / 100`.  Written on the numerator and
denominator with integer floor-division (`q * 100 + 1/2` equals
`(200·num + den) / (2·den)`) so that it evaluates by kernel reduction;
`round2_eq` below states the textbook form. -/
def round2 (q : ℚ) : ℚ :=
  mkRat ((200 * q.num + (q.den : ℤ)) / ((2 * q.den : ℕ) : ℤ)) 100

/-- Python `str.split(",")`. -/
def splitComma : List Char → List (List Char)
  | [] => [[]]
  | c :: rest =>
    if c = ',' then [] :: splitComma rest
    else
      match splitComma rest with
      | [] => [[c]]
      | s :: ss => (c :: s) :: ss

/-- The `{id, name, original, score}` record emitted by `extract_items`. -/
structure Candidate where
  id : String
  name : List Char
  original : List Char
  score : ℚ
deriving DecidableEq

/-- The per-invocation mutable state of `extract_items`: the output list,
the case-insensitive dedupe set and the sequential counter. -/
structure ExtState where
  candidates : List Candidate
  seen : List (List Char)
  idx : Nat
deriving DecidableEq

/-- The per-sub-item emission step (the body of the `for p in parts2` loop
of `extract_items`). -/
def emitItem (raw : List Char) (st : ExtState) (p0 : List Char) : ExtState :=
  if pyStrip p0 = [] then st
  else if pyLower (pyStrip p0) ∈ st.seen then st
  else
    ⟨st.candidates ++
        [⟨toString st.idx, pyStrip p0, raw,
          round2 (clampQ (proportion_letters (pyStrip p0)))⟩],
      pyLower (pyStrip p0) :: st.seen, st.idx + 1⟩

/-- The cleaned `name_part` computed from one raw line by `extract_items`
(lines 60–76 of `extractor.py`): strip, whitespace-normalize, strip
bullets, remove parentheticals, keep the first separator segment, strip
prices and trim residual punctuation. -/
def lineName (raw : List Char) : List Char :=
  pyStrip (stripPunct (strip_price (nameSegment
    (pyStrip (removeParens (parenEdge (stripBullets
      (normalize_whitespace (pyStrip raw)))))))))

/-- The `parts2` comma expansion of `extract_items` (lines 83–87). -/
def lineParts (raw : List Char) : List (List Char) :=
  if (lineName raw).contains ',' then
    (splitComma (lineName raw)).map fun p => stripPunct (normalize_whitespace p)
  else [lineName raw]

/-- Processing of one raw input line (one iteration of the `for raw in
lines` loop of `extract_items`). -/
def processLine (st : ExtState) (raw : List Char) : ExtState :=
  if pyStrip raw = [] then st
  else if is_header_like (normalize_whitespace (pyStrip raw)) then st
  else if lineName raw = [] then st
  else if proportion_letters (lineName raw) < mkRat 2 5 then st
  else (lineParts raw).foldl (emitItem raw) st

/-- `extract_items` from `extractor.py`. -/
def extract_items (lines : List (List Char)) : List Candidate :=
  (lines.foldl processLine ⟨[], [], 0⟩).candidates

/-! Embedding of the companion pass, `parser.py`. -/

/-- The `[\$£€]` character class of `CURRENCY_RE` in `parser.py`. -/
def curSym (c : Char) : Bool := c = '$' || c = '£' || c = '€'

/-- Does the literal `USD`, `EUR` or `GBP` (case-sensitive) start here? -/
def curCode : List Char → Bool
  | 'U' :: 'S' :: 'D' :: _ => true
  | 'E' :: 'U' :: 'R' :: _ => true
  | 'G' :: 'B' :: 'P' :: _ => true
  | _ => false

/-- Does `CURRENCY_RE` match at this position?  On success, returns the
rest of the string after the match.  The first alternative is a currency
symbol, `\s*`, then `\d+`; the second is `\d+`, `\s*`, then a currency
code.  Both quantifiers are effectively greedy-deterministic here, since
backtracking them can never rescue a failed literal. -/
def curMatch (l : List Char) : Option (List Char) :=
  match l with
  | [] => none
  | c :: rest =>
    if curSym c then
      match dropSpaces rest with
      | d :: ds => if pyIsDigitChar d then some (ds.dropWhile pyIsDigitChar) else none
      | [] => none
    else if pyIsDigitChar c then
      let r1 := dropSpaces (rest.dropWhile pyIsDigitChar)
      if curCode r1 then some (r1.drop 3) else none
    else none

/-- `CURRENCY_RE.search(line)`: does the pattern match anywhere? -/
def hasCurrency : List Char → Bool
  | [] => false
  | c :: rest => (curMatch (c :: rest)).isSome || hasCurrency rest

/-- Fuel-driven scan of `CURRENCY_RE.sub("", s)`. -/
def pStripPriceGo : Nat → List Char → List Char
  | 0, l => l
  | _ + 1, [] => []
  | fuel + 1, c :: rest =>
    match curMatch (c :: rest) with
    | some r => pStripPriceGo fuel r
    | none => c :: pStripPriceGo fuel rest

/-- `strip_price` from `parser.py`: `CURRENCY_RE.sub("", s).strip()`. -/
def pStripPrice (l : List Char) : List Char :=
  pyStrip (pStripPriceGo l.length l)

/-- The `{id, text}` record emitted by `parse_lines`. -/
structure PRec where
  id : String
  text : List Char
deriving DecidableEq

/-- The per-invocation state of `parse_lines`: the output list and the
lowercase dedupe set. -/
structure PState where
  items : List PRec
  seen : List (List Char)
deriving DecidableEq

/-- One iteration of the `for i, line in enumerate(lines)` loop of
`parse_lines`, at enumeration index `i`. -/
def parseStep (acc : PState) (i : Nat) (line : List Char) : PState :=
  if line.length < 2 then acc
  else if hasCurrency line then
    if pStripPrice line = [] then acc
    else if pyLower (pStripPrice line) ∈ acc.seen then acc
    else
      ⟨acc.items ++ [⟨toString i, pStripPrice line⟩],
        pyLower (pStripPrice line) :: acc.seen⟩
  else if pyLower line ∈ acc.seen then acc
  else ⟨acc.items ++ [⟨toString i, line⟩], pyLower line :: acc.seen⟩

/-- The enumerated fold of `parse_lines`, carrying the running line index. -/
def parseGo : Nat → PState → List (List Char) → PState
  | _, acc, [] => acc
  | i, acc, line :: rest => parseGo (i + 1) (parseStep acc i line) rest

/-- `parse_lines` from `parser.py`. -/
def parse_lines (lines : List (List Char)) : List PRec :=
  (parseGo 0 ⟨[], []⟩ lines).items

/-- The `text` a line contributes if `parse_lines` emits it: the
currency-stripped line when `CURRENCY_RE` matches somewhere, the raw line
verbatim otherwise. -/
def lineText (line : List Char) : List Char :=
  if hasCurrency line then pStripPrice line else line

/-! ### Character-membership and trimming lemmas -/

theorem mem_of_mem_dropWhile {p : Char → Bool} {l : List Char} {c : Char}
    (h : c ∈ l.dropWhile p) : c ∈ l :=
  (List.dropWhile_sublist p).subset h

theorem mem_of_mem_dropTrail {p : Char → Bool} {l : List Char} {c : Char}
    (h : c ∈ dropTrail p l) : c ∈ l := by
  unfold dropTrail at h
  rw [List.mem_reverse] at h
  exact List.mem_reverse.mp (mem_of_mem_dropWhile h)

theorem mem_of_mem_stripWith {p : Char → Bool} {l : List Char} {c : Char}
    (h : c ∈ stripWith p l) : c ∈ l :=
  mem_of_mem_dropWhile (mem_of_mem_dropTrail h)

theorem collapseWs_mem : ∀ (l : List Char) (c : Char),
    c ∈ collapseWs l → c ∈ l ∨ c = ' '
  | [], c, h => absurd h (by simp [collapseWs])
  | [a], c, h => by
    unfold collapseWs at h
    split at h
    · exact Or.inr (List.mem_singleton.mp h)
    · exact Or.inl h
  | a :: b :: rest, c, h => by
    unfold collapseWs at h
    split at h
    · rcases collapseWs_mem (b :: rest) c h with h' | h'
      · exact Or.inl (List.mem_cons_of_mem _ h')
      · exact Or.inr h'
    · rcases List.mem_cons.mp h with h' | h'
      · by_cases hsp : pyIsSpace a
        · rw [if_pos hsp] at h'
          exact Or.inr h'
        · rw [if_neg hsp] at h'
          exact Or.inl (h' ▸ List.mem_cons_self _ _)
      · rcases collapseWs_mem (b :: rest) c h' with h'' | h''
        · exact Or.inl (List.mem_cons_of_mem _ h'')
        · exact Or.inr h''

theorem normalize_whitespace_mem {l : List Char} {c : Char}
    (h : c ∈ normalize_whitespace l) : c ∈ l ∨ c = ' ' :=
  collapseWs_mem l c (mem_of_mem_stripWith h)

theorem splitComma_ne_nil : ∀ l : List Char, splitComma l ≠ []
  | [] => by simp [splitComma]
  | c :: rest => by
    unfold splitComma
    split
    · simp
    · split <;> simp

theorem splitComma_mem : ∀ (l p : List Char), p ∈ splitComma l → ∀ c ∈ p, c ∈ l
  | [], p, hp, c, hc => by
    simp [splitComma] at hp
    subst hp
    simp at hc
  | a :: rest, p, hp, c, hc => by
    unfold splitComma at hp
    split at hp
    · rcases List.mem_cons.mp hp with h | h
      · subst h; simp at hc
      · exact List.mem_cons_of_mem _ (splitComma_mem rest p h c hc)
    · cases hsr : splitComma rest with
      | nil => exact absurd hsr (splitComma_ne_nil rest)
      | cons s ss =>
        rw [hsr] at hp
        rcases List.mem_cons.mp hp with h | h
        · subst h
          rcases List.mem_cons.mp hc with h' | h'
          · subst h'; exact List.mem_cons_self _ _
          · have hs : s ∈ splitComma rest := by
              rw [hsr]; exact List.mem_cons_self _ _
            exact List.mem_cons_of_mem _ (splitComma_mem rest s hs c h')
        · have hps : p ∈ splitComma rest := by
            rw [hsr]; exact List.mem_cons_of_mem _ h
          exact List.mem_cons_of_mem _ (splitComma_mem rest p hps c hc)

theorem dropWhile_head_false {p : Char → Bool} : ∀ {l : List Char} {c : Char},
    (l.dropWhile p).head? = some c → p c = false
  | [], c, h => by simp at h
  | a :: rest, c, h => by
    rw [List.dropWhile_cons] at h
    split at h
    · exact dropWhile_head_false h
    · next hpa =>
      simp at h
      subst h
      exact Bool.eq_false_iff.mpr hpa

theorem dropWhile_eq_self_of_head {p : Char → Bool} {l : List Char}
    (h : ∀ c, l.head? = some c → p c = false) : l.dropWhile p = l := by
  cases l with
  | nil => rfl
  | cons a rest =>
    rw [List.dropWhile_cons]
    simp [h a rfl]

theorem dropWhile_idem (p : Char → Bool) (l : List Char) :
    (l.dropWhile p).dropWhile p = l.dropWhile p :=
  dropWhile_eq_self_of_head fun _ h => dropWhile_head_false h

theorem dropTrail_pre (p : Char → Bool) (l : List Char) : dropTrail p l <+: l := by
  have h1 : List.dropWhile p l.reverse <:+ l.reverse := List.dropWhile_suffix p
  have h2 := List.reverse_prefix.mpr h1
  simpa [dropTrail] using h2

theorem pre_head_eq {l₁ l₂ : List Char} (h : l₁ <+: l₂) (hne : l₁ ≠ []) :
    l₂.head? = l₁.head? := by
  obtain ⟨t, rfl⟩ := h
  cases l₁ with
  | nil => exact absurd rfl hne
  | cons a r => rfl

theorem dropTrail_idem (p : Char → Bool) (l : List Char) :
    dropTrail p (dropTrail p l) = dropTrail p l := by
  simp [dropTrail, dropWhile_idem]

theorem stripWith_idem (p : Char → Bool) (l : List Char) :
    stripWith p (stripWith p l) = stripWith p l := by
  unfold stripWith
  have hx : (dropTrail p (l.dropWhile p)).dropWhile p = dropTrail p (l.dropWhile p) := by
    apply dropWhile_eq_self_of_head
    intro c hc
    have hne : dropTrail p (l.dropWhile p) ≠ [] := by
      intro he
      rw [he] at hc
      simp at hc
    have hh := pre_head_eq (dropTrail_pre p (l.dropWhile p)) hne
    exact dropWhile_head_false (hh ▸ hc)
  rw [hx, dropTrail_idem]

/-! ### `PRICE_RE` lemmas: matches are non-empty and consume all ASCII digits -/

theorem length_dropSpaces (l : List Char) : (dropSpaces l).length ≤ l.length :=
  (List.dropWhile_sublist pyIsSpace).length_le

theorem length_afterDecimal (l : List Char) : (afterDecimal l).length ≤ l.length := by
  unfold afterDecimal
  split
  · split
    · split
      · split <;> (simp only [List.length_cons]; omega)
      · simp
    · exact le_refl _
  · exact le_refl _

theorem length_afterSlash : ∀ l : List Char, (afterSlash l).length ≤ l.length := by
  intro l
  unfold afterSlash
  split
  · simp
    omega
  · exact le_refl _

theorem tailAfterNumber_some_length {l r : List Char}
    (h : tailAfterNumber l = some r) : r.length < l.length := by
  cases l with
  | nil => simp [tailAfterNumber] at h
  | cons c rest =>
    simp only [tailAfterNumber] at h
    split at h
    · have hr := Option.some.inj h
      subst hr
      calc (afterSlash (dropSpaces (afterDecimal (rest.dropWhile isDig)))).length
          ≤ (dropSpaces (afterDecimal (rest.dropWhile isDig))).length :=
            length_afterSlash _
        _ ≤ (afterDecimal (rest.dropWhile isDig)).length := length_dropSpaces _
        _ ≤ (rest.dropWhile isDig).length := length_afterDecimal _
        _ ≤ rest.length := (List.dropWhile_sublist isDig).length_le
        _ < (c :: rest).length := by simp
    · simp at h

theorem ciStrip_some_length : ∀ {p l r : List Char},
    ciStrip p l = some r → r.length ≤ l.length
  | [], l, r, h => by
    simp [ciStrip] at h
    subst h
    exact le_refl _
  | _ :: _, [], r, h => by simp [ciStrip] at h
  | a :: ps, c :: cs, r, h => by
    unfold ciStrip at h
    split at h
    · exact le_trans (ciStrip_some_length h) (by simp)
    · simp at h

theorem tryCur_some_length {tok l r : List Char} (h : tryCur tok l = some r) :
    r.length < l.length := by
  unfold tryCur at h
  split at h
  · next r1 heq =>
    calc r.length < (dropSpaces r1).length := tailAfterNumber_some_length h
      _ ≤ r1.length := length_dropSpaces _
      _ ≤ l.length := ciStrip_some_length heq
  · simp at h

theorem firstCur_some_length : ∀ {ts : List (List Char)} {l r : List Char},
    firstCur ts l = some r → r.length < l.length
  | [], l, r, h => by
    unfold firstCur at h
    exact lt_of_lt_of_le (tailAfterNumber_some_length h) (length_dropSpaces l)
  | t :: ts, l, r, h => by
    unfold firstCur at h
    split at h
    · next r0 heq =>
      have hr := Option.some.inj h
      subst hr
      exact tryCur_some_length heq
    · exact firstCur_some_length h

theorem priceMatch_some_length {l r : List Char} (h : priceMatch l = some r) :
    r.length < l.length :=
  firstCur_some_length h

theorem firstCur_none_fallback : ∀ {ts : List (List Char)} {l : List Char},
    firstCur ts l = none → tailAfterNumber (dropSpaces l) = none
  | [], l, h => h
  | t :: ts, l, h => by
    unfold firstCur at h
    split at h
    · simp at h
    · exact firstCur_none_fallback h

theorem digit_not_space {c : Char} (h : isDig c = true) : pyIsSpace c = false := by
  simp only [isDig, decide_eq_true_eq] at h
  simp only [pyIsSpace, decide_eq_false_iff_not]
  omega

theorem priceMatch_none_digit {c : Char} {rest : List Char}
    (h : priceMatch (c :: rest) = none) : isDig c = false := by
  by_contra hd
  rw [Bool.not_eq_false] at hd
  have hf := firstCur_none_fallback h
  have hs : pyIsSpace c = false := digit_not_space hd
  rw [show dropSpaces (c :: rest) = c :: rest by
    unfold dropSpaces
    rw [List.dropWhile_cons]
    simp [hs]] at hf
  simp [tailAfterNumber, hd] at hf

theorem priceSubGo_nodigit : ∀ (fuel : Nat) (l : List Char), l.length ≤ fuel →
    ∀ c ∈ priceSubGo fuel l, isDig c = false
  | 0, l, hl, c, hc => by
    have he : l = [] := List.length_eq_zero.mp (Nat.le_zero.mp hl)
    subst he
    simp [priceSubGo] at hc
  | _ + 1, [], _, c, hc => by simp [priceSubGo] at hc
  | fuel + 1, a :: rest, hl, c, hc => by
    unfold priceSubGo at hc
    cases hm : priceMatch (a :: rest) with
    | some r =>
      rw [hm] at hc
      have hrl : r.length ≤ fuel := by
        have := priceMatch_some_length hm
        simp at this hl
        omega
      exact priceSubGo_nodigit fuel r hrl c hc
    | none =>
      rw [hm] at hc
      rcases List.mem_cons.mp hc with h | h
      · subst h
        exact priceMatch_none_digit hm
      · have hrl : rest.length ≤ fuel := by
          simp at hl
          omega
        exact priceSubGo_nodigit fuel rest hrl c h

theorem strip_price_nodigit {l : List Char} {c : Char}
    (hc : c ∈ strip_price l) : isDig c = false :=
  priceSubGo_nodigit l.length l (le_refl _) c (mem_of_mem_stripWith hc)

theorem lineName_nodigit {raw : List Char} {ch : Char}
    (h : ch ∈ lineName raw) : isDig ch = false := by
  unfold lineName at h
  exact strip_price_nodigit (mem_of_mem_stripWith (mem_of_mem_stripWith h))

/-! ### Score bounds -/

theorem clampQ_nonneg (q : ℚ) : 0 ≤ clampQ q :=
  le_min (by norm_num) (le_max_left 0 q)

theorem clampQ_le_one (q : ℚ) : clampQ q ≤ 1 := min_le_left 1 (max 0 q)

theorem proportion_letters_eq (l : List Char) :
    proportion_letters l =
      if l = [] then 0 else (l.countP isLetterChar : ℚ) / (l.length : ℚ) := by
  unfold proportion_letters
  split
  · rfl
  · rw [Rat.mkRat_eq_div]
    push_cast
    ring

theorem round2_eq (q : ℚ) : round2 q = ((round (q * 100) : ℤ) : ℚ) / 100 := by
  have hden : (q.den : ℚ) ≠ 0 := by
    exact_mod_cast q.den_nz
  have h1 : q * 100 + 1 / 2 =
      ((200 * q.num + (q.den : ℤ) : ℤ) : ℚ) / ((2 * q.den : ℕ) : ℚ) := by
    conv_lhs => rw [← Rat.num_div_den q]
    push_cast
    field_simp
    ring
  rw [round_eq, h1, Rat.floor_intCast_div_natCast]
  unfold round2
  rw [Rat.mkRat_eq_div]
  norm_num

theorem round2_bounds {x : ℚ} (h0 : 0 ≤ x) (h1 : x ≤ 1) :
    0 ≤ round2 x ∧ round2 x ≤ 1 := by
  rw [round2_eq]
  have hl : (0 : ℤ) ≤ round (x * 100) := by
    rw [round_eq]
    have : (0 : ℤ) = ⌊(1 : ℚ) / 2⌋ := by norm_num
    rw [this]
    apply Int.floor_le_floor
    nlinarith
  have hu : round (x * 100) ≤ (100 : ℤ) := by
    rw [round_eq]
    have : (100 : ℤ) = ⌊(100 : ℚ) + 1 / 2⌋ := by norm_num
    rw [this]
    apply Int.floor_le_floor
    nlinarith
  constructor
  · apply div_nonneg _ (by norm_num : (0 : ℚ) ≤ 100)
    exact_mod_cast hl
  · rw [div_le_one (by norm_num : (0 : ℚ) < 100)]
    exact_mod_cast hu

theorem round2_clamp_bounds (q : ℚ) :
    0 ≤ round2 (clampQ q) ∧ round2 (clampQ q) ≤ 1 :=
  round2_bounds (clampQ_nonneg q) (clampQ_le_one q)

/-! ### The loop invariant of `extract_items` -/

/-- All the facts maintained by the `extract_items` loop over its state:
the counter matches the output length, ids are the sequence `0, 1, ...` in
emission order, lowercased names are pairwise distinct and recorded in the
dedupe set, and every emitted candidate has a non-empty digit-free name and
a correctly computed score in `[0, 1]`. -/
structure ExtInv (st : ExtState) : Prop where
  idx_eq : st.idx = st.candidates.length
  ids : st.candidates.map (fun c => c.id) =
    (List.range st.candidates.length).map toString
  distinct : (st.candidates.map fun c => pyLower c.name).Pairwise fun a b => a ≠ b
  keys : ∀ c ∈ st.candidates, pyLower c.name ∈ st.seen
  props : ∀ c ∈ st.candidates, c.name ≠ [] ∧ (∀ ch ∈ c.name, isDig ch = false) ∧
    c.score = round2 (clampQ (proportion_letters c.name)) ∧
    0 ≤ c.score ∧ c.score ≤ 1

theorem extInv_init : ExtInv ⟨[], [], 0⟩ :=
  ⟨rfl, rfl, List.Pairwise.nil, by simp, by simp⟩

theorem emitItem_inv {st : ExtState} {raw p0 : List Char}
    (hd : ∀ ch ∈ p0, isDig ch = false) (h : ExtInv st) :
    ExtInv (emitItem raw st p0) := by
  unfold emitItem
  by_cases h1 : pyStrip p0 = []
  · rw [if_pos h1]
    exact h
  rw [if_neg h1]
  by_cases h2 : pyLower (pyStrip p0) ∈ st.seen
  · rw [if_pos h2]
    exact h
  rw [if_neg h2]
  refine ⟨?_, ?_, ?_, ?_, ?_⟩
  · simp [h.idx_eq]
  · simp only [List.map_append, List.length_append, List.map_cons, List.map_nil,
      List.length_cons, List.length_nil]
    rw [h.ids, h.idx_eq]
    simp [List.range_succ]
  · simp only [List.map_append, List.map_cons, List.map_nil]
    rw [List.pairwise_append]
    refine ⟨h.distinct, List.pairwise_singleton _ _, ?_⟩
    intro a ha b hb hab
    rcases List.mem_map.mp ha with ⟨c, hc, rfl⟩
    rcases List.mem_singleton.mp hb with rfl
    exact h2 (hab ▸ h.keys c hc)
  · intro c hc
    rcases List.mem_append.mp hc with hc' | hc'
    · exact List.mem_cons_of_mem _ (h.keys c hc')
    · rcases List.mem_singleton.mp hc' with rfl
      exact List.mem_cons_self _ _
  · intro c hc
    rcases List.mem_append.mp hc with hc' | hc'
    · exact h.props c hc'
    · rcases List.mem_singleton.mp hc' with rfl
      exact ⟨h1, fun ch hch => hd ch (mem_of_mem_stripWith hch), rfl,
        (round2_clamp_bounds _).1, (round2_clamp_bounds _).2⟩

theorem foldl_emit_inv {raw : List Char} : ∀ (ps : List (List Char)) (st : ExtState),
    (∀ p ∈ ps, ∀ ch ∈ p, isDig ch = false) → ExtInv st →
    ExtInv (ps.foldl (emitItem raw) st)
  | [], _, _, h => h
  | p :: ps, st, hd, h => by
    rw [List.foldl_cons]
    exact foldl_emit_inv ps _ (fun q hq => hd q (List.mem_cons_of_mem _ hq))
      (emitItem_inv (hd p (List.mem_cons_self _ _)) h)

theorem lineParts_nodigit {raw : List Char} {p : List Char} (hp : p ∈ lineParts raw) :
    ∀ ch ∈ p, isDig ch = false := by
  intro ch hch
  unfold lineParts at hp
  split at hp
  · rcases List.mem_map.mp hp with ⟨q, hq, rfl⟩
    rcases normalize_whitespace_mem (mem_of_mem_stripWith hch) with h' | h'
    · exact lineName_nodigit (splitComma_mem _ q hq ch h')
    · subst h'
      rfl
  · have hp' : p = lineName raw := List.mem_singleton.mp hp
    exact lineName_nodigit (hp' ▸ hch)

theorem processLine_inv {st : ExtState} {raw : List Char} (h : ExtInv st) :
    ExtInv (processLine st raw) := by
  unfold processLine
  split
  · exact h
  split
  · exact h
  split
  · exact h
  split
  · exact h
  exact foldl_emit_inv _ st (fun p hp => lineParts_nodigit hp) h

theorem foldl_processLine_inv : ∀ (ls : List (List Char)) (st : ExtState),
    ExtInv st → ExtInv (ls.foldl processLine st)
  | [], _, h => h
  | l :: ls, st, h => by
    rw [List.foldl_cons]
    exact foldl_processLine_inv ls _ (processLine_inv h)

theorem extract_items_inv (ls : List (List Char)) :
    ExtInv (ls.foldl processLine ⟨[], [], 0⟩) :=
  foldl_processLine_inv ls _ extInv_init

/-! ### Append-only emission and skip lemmas -/

theorem emitItem_append (raw p0 : List Char) (st : ExtState) :
    ∃ new, (emitItem raw st p0).candidates = st.candidates ++ new ∧
      ∀ c ∈ new, c.original = raw := by
  unfold emitItem
  by_cases h1 : pyStrip p0 = []
  · rw [if_pos h1]
    exact ⟨[], by simp, by simp⟩
  rw [if_neg h1]
  by_cases h2 : pyLower (pyStrip p0) ∈ st.seen
  · rw [if_pos h2]
    exact ⟨[], by simp, by simp⟩
  rw [if_neg h2]
  exact ⟨_, rfl, by simp⟩

theorem foldl_emit_append (raw : List Char) : ∀ (ps : List (List Char)) (st : ExtState),
    ∃ new, (ps.foldl (emitItem raw) st).candidates = st.candidates ++ new ∧
      ∀ c ∈ new, c.original = raw
  | [], st => ⟨[], by simp, by simp⟩
  | p :: ps, st => by
    rw [List.foldl_cons]
    obtain ⟨n1, hn1, ho1⟩ := emitItem_append raw p st
    obtain ⟨n2, hn2, ho2⟩ := foldl_emit_append raw ps (emitItem raw st p)
    refine ⟨n1 ++ n2, ?_, ?_⟩
    · rw [hn2, hn1, List.append_assoc]
    · intro c hc
      rcases List.mem_append.mp hc with h | h
      exacts [ho1 c h, ho2 c h]

theorem processLine_append (st : ExtState) (raw : List Char) :
    ∃ new, (processLine st raw).candidates = st.candidates ++ new ∧
      ∀ c ∈ new, c.original = raw := by
  unfold processLine
  split
  · exact ⟨[], by simp, by simp⟩
  split
  · exact ⟨[], by simp, by simp⟩
  split
  · exact ⟨[], by simp, by simp⟩
  split
  · exact ⟨[], by simp, by simp⟩
  exact foldl_emit_append raw _ st

theorem processLine_skip_blank {raw : List Char} (h : pyStrip raw = [])
    (st : ExtState) : processLine st raw = st := by
  unfold processLine
  rw [if_pos h]

theorem foldl_skip_blank : ∀ (ls : List (List Char)) (st : ExtState),
    (∀ l ∈ ls, pyStrip l = []) → ls.foldl processLine st = st
  | [], _, _ => rfl
  | l :: ls, st, h => by
    rw [List.foldl_cons, processLine_skip_blank (h l (List.mem_cons_self _ _))]
    exact foldl_skip_blank ls st fun q hq => h q (List.mem_cons_of_mem _ hq)

theorem processLine_skip_header {raw : List Char}
    (hlen : (wordsOf (normalize_whitespace (pyStrip raw))).length ≤ 4)
    (hup : ∀ w ∈ wordsOf (normalize_whitespace (pyStrip raw)), pyIsUpper w = true)
    (st : ExtState) : processLine st raw = st := by
  unfold processLine
  by_cases h1 : pyStrip raw = []
  · rw [if_pos h1]
  rw [if_neg h1]
  have hstrip : pyStrip (normalize_whitespace (pyStrip raw)) =
      normalize_whitespace (pyStrip raw) :=
    stripWith_idem pyIsSpace (collapseWs (pyStrip raw))
  have hh : is_header_like (normalize_whitespace (pyStrip raw)) = true := by
    unfold is_header_like
    by_cases h2 : pyStrip (normalize_whitespace (pyStrip raw)) = []
    · rw [if_pos h2]
    · rw [if_neg h2, if_pos ?_]
      rw [Bool.and_eq_true]
      constructor
      · rw [hstrip]
        exact decide_eq_true hlen
      · rw [hstrip, List.all_eq_true]
        intro w hw
        rw [hup w hw]
        rfl
  rw [if_pos hh]

/-! ### `parse_lines` id/text provenance -/

theorem parseStep_cases (acc : PState) (i : Nat) (line : List Char) :
    parseStep acc i line = acc ∨
      parseStep acc i line =
        ⟨acc.items ++ [⟨toString i, lineText line⟩],
          pyLower (lineText line) :: acc.seen⟩ := by
  unfold parseStep
  split
  · exact Or.inl rfl
  split
  · next hcur =>
    split
    · exact Or.inl rfl
    split
    · exact Or.inl rfl
    right
    unfold lineText
    rw [if_pos hcur]
  · next hcur =>
    split
    · exact Or.inl rfl
    right
    unfold lineText
    rw [if_neg hcur]

theorem parseGo_prov : ∀ (ls : List (List Char)) (i : Nat) (acc : PState),
    ∃ is : List Nat, is.Pairwise (fun a b => a < b) ∧
      (∀ j ∈ is, i ≤ j ∧ j < i + ls.length) ∧
      (parseGo i acc ls).items = acc.items ++
        is.map fun j => (⟨toString j, lineText (ls.getD (j - i) [])⟩ : PRec)
  | [], _, acc => ⟨[], List.Pairwise.nil, by simp, by simp [parseGo]⟩
  | line :: rest, i, acc => by
    obtain ⟨is', hpw, hbnd, hitems⟩ := parseGo_prov rest (i + 1) (parseStep acc i line)
    have hmap : ∀ j ∈ is',
        (line :: rest).getD (j - i) [] = rest.getD (j - (i + 1)) [] := by
      intro j hj
      have h1 := (hbnd j hj).1
      rw [show j - i = (j - (i + 1)) + 1 by omega]
      rfl
    rcases parseStep_cases acc i line with hstep | hstep
    · refine ⟨is', hpw, ?_, ?_⟩
      · intro j hj
        obtain ⟨h1, h2⟩ := hbnd j hj
        refine ⟨by omega, ?_⟩
        simp only [List.length_cons]
        omega
      · rw [show parseGo i acc (line :: rest) =
            parseGo (i + 1) (parseStep acc i line) rest from rfl, hitems, hstep]
        congr 1
        apply List.map_congr_left
        intro j hj
        rw [hmap j hj]
    · refine ⟨i :: is', ?_, ?_, ?_⟩
      · refine List.Pairwise.cons ?_ hpw
        intro j hj
        have := (hbnd j hj).1
        omega
      · intro j hj
        rcases List.mem_cons.mp hj with rfl | hj'
        · refine ⟨le_refl j, ?_⟩
          simp only [List.length_cons]
          omega
        · obtain ⟨h1, h2⟩ := hbnd j hj'
          refine ⟨by omega, ?_⟩
          simp only [List.length_cons]
          omega
      · rw [show parseGo i acc (line :: rest) =
            parseGo (i + 1) (parseStep acc i line) rest from rfl, hitems, hstep]
        simp only [List.map_cons]
        rw [show i - i = 0 from by omega, show (line :: rest).getD 0 [] = line from rfl]
        rw [List.append_assoc, List.singleton_append]
        congr 2
        apply List.map_congr_left
        intro j hj
        rw [hmap j hj]

/-! ### The claims -/

/-- C1: for every input list of strings, no two candidates emitted by
`extract_items` in one invocation have case-insensitively equal names: the
lowercased names of the output are pairwise distinct (the dedupe set keeps
the first occurrence and silently drops later duplicates). -/
theorem C1_dedup_names (ls : List (List Char)) :
    ((extract_items ls).map fun c => pyLower c.name).Pairwise fun a b => a ≠ b :=
  (extract_items_inv ls).distinct

theorem C1_dedup_names_witness :
    ((extract_items ["Tea, Coffee, Lassi".data, "TEA x".data]).map
      fun c => pyLower c.name).Pairwise fun a b => a ≠ b :=
  C1_dedup_names _

/-- C2 counterexample: the claim "every emitted name contains a non-digit
character / a letter" fails.  On input `["Teaa, ٣٣٣"]` the letter-density
filter is applied to the whole line before comma expansion, so the comma
sub-item `"٣٣٣"` — non-empty and consisting solely of (Arabic-Indic)
digits, i.e. purely numeric — is emitted as a candidate name. -/
theorem C2_counterexample_numeric_name :
    ∃ c ∈ extract_items ["Teaa, ٣٣٣".data],
      c.name ≠ [] ∧ ∀ ch ∈ c.name, pyIsDigitChar ch = true := by decide

/-- C2 (amended): every candidate emitted by `extract_items` has a
non-empty name containing no ASCII digit (the `[0-9]` class of `PRICE_RE`
is fully stripped), which is all the code guarantees: sub-items made of
non-ASCII digit characters can still be emitted, since the letter-density
filter runs on the whole line before comma expansion. -/
theorem C2_names_nonempty_nodigit (ls : List (List Char)) (c : Candidate)
    (hc : c ∈ extract_items ls) :
    c.name ≠ [] ∧ ∀ ch ∈ c.name, isDig ch = false :=
  ⟨((extract_items_inv ls).props c hc).1, ((extract_items_inv ls).props c hc).2.1⟩

theorem C2_names_nonempty_nodigit_witness :
    (⟨"0", "Dosa Idli".data, "Dosa Idli".data, mkRat 89 100⟩ : Candidate).name ≠ [] ∧
      ∀ ch ∈ (⟨"0", "Dosa Idli".data, "Dosa Idli".data, mkRat 89 100⟩ : Candidate).name,
        isDig ch = false :=
  C2_names_nonempty_nodigit ["Dosa Idli".data] _ (by decide)

/-- C3 counterexample: re-processing is not stable.  On input
`["Tea, Coffee, Lassi"]` the classifier emits the clean name `"Tea"`, but
re-running it on `["Tea"]` yields no candidate at all (a single word of at
most 3 characters is header-like), so a clean name is dropped — not merely
trimmed — by a second pass. -/
theorem C3_counterexample_tea_dropped :
    (∃ c ∈ extract_items ["Tea, Coffee, Lassi".data], c.name = "Tea".data) ∧
      extract_items ["Tea".data] = [] := by decide

/-- C3 (amended): re-processing is stable only for names that themselves
pass every per-line filter.  If a string is fixed by each cleaning stage
(strip, whitespace normalization, bullet stripping, parenthetical removal,
separator splitting, price stripping, punctuation trimming), is not
header-like, contains no comma and passes the letter-density filter, then
`extract_items` on that single line returns exactly that name, unchanged.
Emitted names failing these filters (e.g. `"Tea"`, which is header-like
because it is a single word of ≤ 3 characters) can be dropped entirely. -/
theorem C3_reprocess_stable (n : List Char) (h0 : n ≠ [])
    (h1 : pyStrip n = n) (h2 : normalize_whitespace n = n)
    (h3 : is_header_like n = false) (h4 : stripBullets n = n)
    (h5 : parenEdge n = n) (h6 : removeParens n = n) (h7 : nameSegment n = n)
    (h8 : priceSub n = n) (h9 : stripPunct n = n)
    (h10 : n.contains ',' = false) (h11 : ¬proportion_letters n < mkRat 2 5) :
    extract_items [n] =
      [⟨toString (0 : Nat), n, n, round2 (clampQ (proportion_letters n))⟩] := by
  have hname : lineName n = n := by
    unfold lineName strip_price
    simp only [h1, h2, h4, h5, h6, h7, h8, h9]
  have hparts : lineParts n = [n] := by
    unfold lineParts
    rw [hname, h10]
    simp
  rw [show extract_items [n] = (processLine ⟨[], [], 0⟩ n).candidates from rfl]
  unfold processLine
  simp only [h1, h2, h3, hname, hparts]
  rw [if_neg h0, if_neg (by simp), if_neg h0, if_neg h11]
  rw [List.foldl_cons, List.foldl_nil]
  unfold emitItem
  simp only [h1]
  rw [if_neg h0, if_neg (List.not_mem_nil _)]
  simp

theorem C3_reprocess_stable_witness :
    extract_items ["Paneer Tikka".data] =
      [⟨toString (0 : Nat), "Paneer Tikka".data, "Paneer Tikka".data,
        round2 (clampQ (proportion_letters "Paneer Tikka".data))⟩] :=
  C3_reprocess_stable "Paneer Tikka".data (by decide) (by decide) (by decide)
    (by decide) (by decide) (by decide) (by decide) (by decide) (by decide)
    (by decide) (by decide) (by decide)

/-- C4 counterexample: `parse_lines` ids are not emission-order indices.
On input `["a", "bc", "de"]` the line `"a"` is skipped (length < 2) but
still advances the `enumerate` counter, so the first emitted record has id
`"1"`, not `"0"`, and the ids have a gap relative to emission order. -/
theorem C4_counterexample_id_gap :
    parse_lines [['a'], "bc".data, "de".data] =
      [⟨"1", "bc".data⟩, ⟨"2", "de".data⟩] := by decide

/-- C4 (amended): the ids of `parse_lines` are the `enumerate` indices of
the source lines, not emission positions.  For every input there is a
strictly increasing list `is` of indices into the input such that the
output is exactly the records `⟨str(i), cleaned text of line i⟩` for
`i ∈ is`: each record's `id` is the 0-based index of its own source line
and its `text` is that very line (currency-stripped when `CURRENCY_RE`
matches).  Since skipped lines advance the counter but contribute no
record, their indices are simply missing from `is`, leaving gaps in the
emitted id sequence. -/
theorem C4_ids_are_input_indices (lines : List (List Char)) :
    ∃ is : List Nat, is.Pairwise (fun a b => a < b) ∧
      (∀ i ∈ is, i < lines.length) ∧
      parse_lines lines =
        is.map fun i => (⟨toString i, lineText (lines.getD i [])⟩ : PRec) := by
  obtain ⟨is, hpw, hbnd, hitems⟩ := parseGo_prov lines 0 ⟨[], []⟩
  refine ⟨is, hpw, fun i hi => ?_, ?_⟩
  · have h2 := (hbnd i hi).2
    omega
  · unfold parse_lines
    rw [hitems]
    simp only [List.nil_append]
    apply List.map_congr_left
    intro j _
    rw [show j - 0 = j from rfl]

theorem C4_ids_witness :
    ∃ is : List Nat, is.Pairwise (fun a b => a < b) ∧
      (∀ i ∈ is, i < ([['a'], "bc".data, "de".data] : List (List Char)).length) ∧
      parse_lines [['a'], "bc".data, "de".data] =
        is.map fun i =>
          (⟨toString i,
            lineText (([['a'], "bc".data, "de".data] : List (List Char)).getD i [])⟩ : PRec) :=
  C4_ids_are_input_indices [['a'], "bc".data, "de".data]

/-- C5: header exclusion.  Any input line that, after whitespace
normalization, tokenizes into at most 4 words, each of which is
all-uppercase (Python `str.isupper`), contributes no candidate: deleting
it from the input leaves the output of `extract_items` unchanged. -/
theorem C5_header_exclusion (pre post : List (List Char)) (raw : List Char)
    (hlen : (wordsOf (normalize_whitespace (pyStrip raw))).length ≤ 4)
    (hup : ∀ w ∈ wordsOf (normalize_whitespace (pyStrip raw)), pyIsUpper w = true) :
    extract_items (pre ++ raw :: post) = extract_items (pre ++ post) := by
  unfold extract_items
  rw [List.foldl_append, List.foldl_append, List.foldl_cons,
    processLine_skip_header hlen hup]

theorem C5_header_exclusion_witness :
    extract_items ([] ++ "VEG SNACKS".data :: []) = extract_items ([] ++ []) :=
  C5_header_exclusion [] [] "VEG SNACKS".data (by decide) (by decide)

/-- C6: totality on degenerate input.  `extract_items` is a total function
by construction; on an input list whose lines are all empty or
whitespace-only (in particular the empty list) it returns the empty
candidate list. -/
theorem C6_total_whitespace (ls : List (List Char))
    (h : ∀ l ∈ ls, pyStrip l = []) : extract_items ls = [] := by
  unfold extract_items
  rw [foldl_skip_blank ls _ h]

theorem C6_total_whitespace_witness : extract_items ["".data, "   ".data] = [] :=
  C6_total_whitespace ["".data, "   ".data] (by decide)

/-- C7: sequential ids.  For every input list, the ids of the candidates
returned by `extract_items` are exactly `str(0), str(1), ...` in emission
order: the shared counter starts at 0 and is incremented once per emitted
candidate, across all lines of one invocation. -/
theorem C7_sequential_ids (ls : List (List Char)) :
    (extract_items ls).map (fun c => c.id) =
      (List.range (extract_items ls).length).map toString :=
  (extract_items_inv ls).ids

theorem C7_sequential_ids_witness :
    (extract_items ["VEG SNACKS".data, "Tea, Coffee, Lassi".data]).map
        (fun c => c.id) =
      (List.range
        (extract_items ["VEG SNACKS".data, "Tea, Coffee, Lassi".data]).length).map
        toString :=
  C7_sequential_ids _

/-- C8: score postcondition.  Every candidate emitted by `extract_items`
has `score = round(clamp(proportion_letters(name), 0, 1), 2)` — the letter
density of its own name, clamped to `[0, 1]` and rounded to two decimal
places — and hence every emitted score lies in `[0, 1]`. -/
theorem C8_score_density (ls : List (List Char)) (c : Candidate)
    (hc : c ∈ extract_items ls) :
    c.score = round2 (clampQ (proportion_letters c.name)) ∧
      0 ≤ c.score ∧ c.score ≤ 1 :=
  ⟨((extract_items_inv ls).props c hc).2.2.1,
   ((extract_items_inv ls).props c hc).2.2.2.1,
   ((extract_items_inv ls).props c hc).2.2.2.2⟩

/-- The candidate produced by the spec's own price-stripping example. -/
def paneerCand : Candidate :=
  ⟨"0", "Paneer Tikka".data, "Paneer Tikka    ₹180/-".data, mkRat 23 25⟩

theorem C8_score_density_witness :
    paneerCand.score = round2 (clampQ (proportion_letters paneerCand.name)) ∧
      0 ≤ paneerCand.score ∧ paneerCand.score ≤ 1 :=
  C8_score_density ["Paneer Tikka    ₹180/-".data] paneerCand (by decide)

/-- C9: original-line traceability.  Each line contributes an append-only
block of candidates, every one of which carries the raw untouched input
line in its `original` field; in particular, on the spec's comma-expansion
example all three candidates share the full source line as `original`,
each with its own sequential id and score. -/
theorem C9_original_traceability :
    (∀ (st : ExtState) (raw : List Char), ∃ new,
        (processLine st raw).candidates = st.candidates ++ new ∧
          ∀ c ∈ new, c.original = raw) ∧
      extract_items ["Tea, Coffee, Lassi".data] =
        [⟨"0", "Tea".data, "Tea, Coffee, Lassi".data, 1⟩,
         ⟨"1", "Coffee".data, "Tea, Coffee, Lassi".data, 1⟩,
         ⟨"2", "Lassi".data, "Tea, Coffee, Lassi".data, 1⟩] :=
  ⟨processLine_append, by decide⟩

theorem C9_original_traceability_witness :
    ∃ new, (processLine ⟨[], [], 0⟩ "Dosa Idli".data).candidates =
        (⟨[], [], 0⟩ : ExtState).candidates ++ new ∧
      ∀ c ∈ new, c.original = "Dosa Idli".data :=
  C9_original_traceability.1 ⟨[], [], 0⟩ "Dosa Idli".data

/-- C10: `parse_lines` performs no trimming or whitespace normalization.
Any line of length ≥ 2 with no `CURRENCY_RE` match whose lowercase form is
not already in the dedupe set is emitted with `text` equal to the line,
character for character — in particular a line of two or more whitespace
characters is emitted verbatim. -/
theorem C10_parse_verbatim (acc : PState) (i : Nat) (line : List Char)
    (hlen : 2 ≤ line.length) (hcur : hasCurrency line = false)
    (hseen : pyLower line ∉ acc.seen) :
    parseStep acc i line =
      ⟨acc.items ++ [⟨toString i, line⟩], pyLower line :: acc.seen⟩ := by
  unfold parseStep
  rw [if_neg (by omega), if_neg (by simp [hcur]), if_neg hseen]

theorem C10_parse_verbatim_witness :
    parseStep ⟨[], []⟩ 0 "  ".data =
      ⟨(⟨[], []⟩ : PState).items ++ [⟨toString (0 : Nat), "  ".data⟩],
        pyLower "  ".data :: (⟨[], []⟩ : PState).seen⟩ :=
  C10_parse_verbatim ⟨[], []⟩ 0 "  ".data (by decide) (by decide)
    (List.not_mem_nil _)
